import Mathlib

/-
Verification development for the olive-test repository (backend of a
dog-breed mirror service).  The definitions below are shallow embeddings of
the Python source files `src/backend/app.py`, `src/backend/dog_cache.py`
and `src/backend/background_jobs.py`; the theorems check the repository's
natural-language specification against them.
-/

set_option maxHeartbeats 1000000

namespace OliveTest

/-! ## Model of Python values

`validate_and_normalize_dog_data` receives arbitrary decoded-JSON Python
values, so we embed the relevant fragment of Python's data model: `None`,
booleans, integers, strings, lists and string-keyed dicts. -/

inductive PyVal where
  | none
  | bool (b : Bool)
  | int (n : Int)
  | str (s : String)
  | list (l : List PyVal)
  | dict (d : List (String × PyVal))

/-- Python truthiness (`bool(x)`) for the embedded values: `None`, `False`,
`0`, `""`, `[]` and `{}` are falsy, everything else is truthy. -/
def PyVal.truthy : PyVal → Bool
  | .none => false
  | .bool b => b
  | .int n => n != 0
  | .str s => s != ""
  | .list l => !l.isEmpty
  | .dict d => !d.isEmpty

/-- Embeds Python's `isinstance(x, str)`. -/
def PyVal.isStr : PyVal → Bool
  | .str _ => true
  | _ => false

/-- The underlying string of a `PyVal.str`; defaults to `""` elsewhere (only
ever used under an `isStr` guard, mirroring Python's short-circuiting). -/
def PyVal.asStr : PyVal → String
  | .str s => s
  | _ => ""

/-- Embeds Python's `d.get(k)`: the value stored under `k`, or `None` when
the key is absent. -/
def pyGet (d : List (String × PyVal)) (k : String) : PyVal :=
  match d.find? (fun p => p.1 == k) with
  | some p => p.2
  | Option.none => PyVal.none

/-- Contiguous-sublist test on lists, embedding Python's `pat in s`
substring operator (via `strContains` below). -/
def listContains : List Char → List Char → Bool
  | pat, [] => pat.isEmpty
  | pat, a :: as => pat.isPrefixOf (a :: as) || listContains pat as

/-- Embeds Python's substring test `pat in s`. -/
def strContains (s pat : String) : Bool :=
  listContains pat.toList s.toList

/-- Leading-whitespace removal on a character list (one side of Python's
`str.strip()`), written with structural recursion so proofs can evaluate
it. -/
def dropWhileWs : List Char → List Char
  | [] => []
  | c :: cs => if c.isWhitespace then dropWhileWs cs else c :: cs

/-- Embeds Python's `str.strip()`: whitespace removed from both ends. -/
def pyStrip (s : String) : String :=
  String.mk ((dropWhileWs (dropWhileWs s.data).reverse).reverse)

/-- Embeds Python's `str.lower()` for the ASCII data in play. -/
def pyLower (s : String) : String :=
  String.mk (s.data.map Char.toLower)

/-- The corrupted-breed test of `validate_and_normalize_dog_data`
(`app.py` lines 84-87): trimmed breed longer than 60 characters, or its
lowercasing contains a URL scheme or an image-file extension. -/
def corruptedBreed (b : String) : Bool :=
  decide (60 < b.length) ||
  strContains (pyLower b) "http://" ||
  strContains (pyLower b) "https://" ||
  ([".jpg", ".jpeg", ".png", ".gif", ".webp"].any (fun ext => strContains (pyLower b) ext))

/-- A normalized dog record `{"breed": ..., "image": ...}`. -/
structure DogRecord where
  breed : String
  image : String
deriving DecidableEq, Repr

/-- Embeds `validate_and_normalize_dog_data` from `app.py` (lines 70-100):
rejects non-dicts, missing/falsy/non-string/blank breeds and corrupted
breeds; normalizes a missing/falsy/non-string/blank image to `""`,
otherwise trims it. -/
def validate_and_normalize_dog_data (data : PyVal) : Option DogRecord :=
  match data with
  | PyVal.dict d =>
    let breed := pyGet d "breed"
    let image := pyGet d "image"
    if !breed.truthy || !breed.isStr || (pyStrip breed.asStr).length == 0 then
      Option.none
    else
      let b := pyStrip breed.asStr
      if corruptedBreed b then
        Option.none
      else
        let img :=
          if !image.truthy || !image.isStr || (pyStrip image.asStr).length == 0 then ""
          else pyStrip image.asStr
        some ⟨b, img⟩
  | _ => Option.none

/-- Image normalization as the specification words it: if the `image` field
is absent, not a string, or empty after trimming, normalize to the empty
string; otherwise trim and keep. -/
def imageSpec (d : List (String × PyVal)) : String :=
  match d.find? (fun p => p.1 == "image") with
  | Option.none => ""
  | some p =>
    match p.2 with
    | PyVal.str s => if pyStrip s = "" then "" else pyStrip s
    | _ => ""

/-- The validator as the specification words it (spec section 4.1): reject
non-record inputs, absent/non-string/blank breeds, and corrupted breeds
(length over 60, URL scheme, image-file extension, case-insensitively);
otherwise produce the trimmed breed with the normalized image. -/
def normalize_spec (data : PyVal) : Option DogRecord :=
  match data with
  | PyVal.dict d =>
    match d.find? (fun p => p.1 == "breed") with
    | Option.none => Option.none
    | some p =>
      match p.2 with
      | PyVal.str s =>
        if pyStrip s = "" then Option.none
        else if corruptedBreed (pyStrip s) then Option.none
        else some ⟨pyStrip s, imageSpec d⟩
      | _ => Option.none
  | _ => Option.none

/-! ## Model of the durable store (`dog_cache.py`)

The `dogs` table is modelled as its list of rows `(breed, image)`; the
`breed` column is the primary key, so reachable stores have pairwise
distinct keys. -/

abbrev Store := List (String × String)

/-- Whether the table already holds a row with primary key `breed`. -/
def keyPresent (s : Store) (breed : String) : Bool :=
  s.any (fun r => r.1 == breed)

/-- One `INSERT OR REPLACE INTO dogs (breed, image, ...)` statement: the
row with the conflicting primary key (if any) is replaced, otherwise the
new row is inserted. -/
def upsertRow (s : Store) (breed image : String) : Store :=
  if keyPresent s breed then
    s.map (fun r => if r.1 == breed then (breed, image) else r)
  else
    s ++ [(breed, image)]

/-- The image stored under key `k`, if any (`SELECT image WHERE breed = k`). -/
def rawLookup (s : Store) (k : String) : Option String :=
  (s.find? (fun r => r.1 == k)).map Prod.snd

/-- The sequential effect of `cursor.executemany` over a batch of records. -/
def applyB (s : Store) (dogs : List DogRecord) : Store :=
  dogs.foldl (fun acc d => upsertRow acc d.breed d.image) s

/-- The value the last occurrence of key `k` in a batch assigns, if any. -/
def lastVal : List DogRecord → String → Option String
  | [], _ => Option.none
  | d :: ds, k =>
    match lastVal ds k with
    | some v => some v
    | Option.none => if d.breed == k then some d.image else Option.none

/-- Embeds `DogCache.add_dogs_batch` (`dog_cache.py` lines 47-66): an empty
batch returns 0 and leaves the table alone; otherwise every record is
upserted in order and the returned count is `cursor.rowcount`, which for
`executemany` of `INSERT OR REPLACE` accumulates one affected row per
executed statement. -/
def add_dogs_batch (s : Store) (dogs : List DogRecord) : Nat × Store :=
  if dogs.isEmpty then (0, s)
  else dogs.foldl (fun acc d => (acc.1 + 1, upsertRow acc.2 d.breed d.image)) (0, s)

/-- Code-point comparison of strings as character lists, embedding both
SQLite's default `ORDER BY breed` on these ASCII keys and Python's
`sorted`. -/
def lexLe : List Char → List Char → Bool
  | [], _ => true
  | _ :: _, [] => false
  | a :: as, b :: bs =>
    if a.toNat < b.toNat then true
    else if b.toNat < a.toNat then false
    else lexLe as bs

/-- Insertion step of the by-key sort used to model `ORDER BY breed`. -/
def insertByKey (x : String × String) : List (String × String) → List (String × String)
  | [] => [x]
  | y :: ys => if lexLe x.1.toList y.1.toList then x :: y :: ys else y :: insertByKey x ys

/-- Sorting the table rows by breed, modelling `ORDER BY breed`. -/
def sortByKey : List (String × String) → List (String × String)
  | [] => []
  | x :: xs => insertByKey x (sortByKey xs)

/-- Embeds `DogCache.get_all_dogs_dict` (`dog_cache.py` lines 69-76):
`SELECT breed, image FROM dogs ORDER BY breed` materialized as the sorted
association list `{breed: image}`. -/
def get_all_dogs_dict (s : Store) : List (String × String) :=
  sortByKey s

/-- `get_all_dogs_dict` as a state-passing operation: it returns the
snapshot and the (untouched) table, since it only issues a `SELECT`. -/
def get_all_dogs_dict_op (s : Store) : List (String × String) × Store :=
  (get_all_dogs_dict s, s)

/-! ## Model of the read endpoint (`app.py`, `get_dogs`) -/

def ITEMS_PER_PAGE : Nat := 15

/-- Python list slicing `l[start:stop]` (unit step), including the
negative-index and clamping semantics. -/
def pySlice {α : Type} (l : List α) (start stop : Int) : List α :=
  let n : Int := (l.length : Int)
  let s : Int := if start < 0 then max (n + start) 0 else min start n
  let e : Int := if stop < 0 then max (n + stop) 0 else min stop n
  (l.drop s.toNat).take (e - s).toNat

/-- Embeds the `GET /api/dogs` handler (`app.py` lines 182-198): sort the
snapshot, slice out the 15-item window of the 1-indexed `page`, and answer
with HTTP 200. -/
def get_dogs (s : Store) (page : Int) : List (String × String) × Nat :=
  let all_dogs := get_all_dogs_dict s
  let start_idx := (page - 1) * (ITEMS_PER_PAGE : Int)
  let end_idx := start_idx + (ITEMS_PER_PAGE : Int)
  (pySlice all_dogs start_idx end_idx, 200)

/-! ## Model of the fetch client (`app.py`, `fetch_with_retry`) -/

def MAX_RETRIES : Nat := 3

def RETRY_DELAY : Nat := 1

/-- Outcome of one upstream HTTP attempt: HTTP 200 with a JSON array body,
HTTP 200 with a non-array body, a non-200 status, or a raised network
error (timeout, connection failure, malformed body). -/
inductive AttemptResult where
  | ok (data : List PyVal)
  | badShape
  | badStatus (code : Nat)
  | netError

/-- Whether the attempt satisfied the success condition of
`fetch_with_retry` (status 200 and an array body). -/
def AttemptResult.isOk : AttemptResult → Bool
  | .ok _ => true
  | _ => false

/-- Observable side effects of `fetch_with_retry`: an upstream request for
a given attempt number, or a `time.sleep` of a given number of seconds. -/
inductive FetchEvent where
  | request (attempt : Nat)
  | sleep (seconds : Nat)
deriving DecidableEq, Repr

/-- The `for attempt in range(1, MAX_RETRIES + 1)` loop body of
`fetch_with_retry`, over the remaining attempt numbers: issue the request;
on success return the data; on failure sleep `RETRY_DELAY * 2^(attempt-1)`
seconds when attempts remain, and fall through to the next attempt. -/
def retryGo (upstream : Nat → AttemptResult) : List Nat → List FetchEvent × Option (List PyVal)
  | [] => ([], Option.none)
  | attempt :: rest =>
    match upstream attempt with
    | AttemptResult.ok data => ([FetchEvent.request attempt], some data)
    | _ =>
      let tail :=
        if attempt < MAX_RETRIES then
          let r := retryGo upstream rest
          (FetchEvent.sleep (RETRY_DELAY * 2 ^ (attempt - 1)) :: r.1, r.2)
        else
          retryGo upstream rest
      (FetchEvent.request attempt :: tail.1, tail.2)

/-- Embeds `fetch_with_retry` (`app.py` lines 40-67), parameterized by the
per-attempt upstream behaviour; returns the event trace together with the
result (`none` models the Python `return None` failure). -/
def fetch_with_retry (upstream : Nat → AttemptResult) : List FetchEvent × Option (List PyVal) :=
  retryGo upstream (List.range' 1 MAX_RETRIES)

/-! ## Model of the ingestion orchestrator (`app.py`, `fetch_dogs_from_api`) -/

def MAX_EXTERNAL_PAGES : Nat := 50

/-- Mutable state of one ingestion run: the cache table, the
`consecutive_failures` and `total_fetched` counters, and (for the proofs)
the trace of pages for which `fetch_with_retry` was called. -/
structure RunState where
  cache : Store
  consecutiveFailures : Nat
  totalFetched : Nat
  requested : List Nat

/-- Whether the loop body for one page falls through to the next page or
executes `break`. -/
inductive StepOut where
  | next (s : RunState)
  | stop (s : RunState)

/-- The loop body of `fetch_dogs_from_api` for one page, parameterized by
the per-page result of `fetch_with_retry`: on failure increment
`consecutive_failures` and `break` once it reaches 10, otherwise
`continue`; on success reset the counter, `break` on an empty page, and
otherwise validate the items and upsert the accepted batch. -/
def pageStep (oracle : Nat → Option (List PyVal)) (page : Nat) (st : RunState) : StepOut :=
  let st1 := { st with requested := st.requested ++ [page] }
  match oracle page with
  | Option.none =>
    let st2 := { st1 with consecutiveFailures := st1.consecutiveFailures + 1 }
    if 10 ≤ st2.consecutiveFailures then StepOut.stop st2 else StepOut.next st2
  | some data =>
    let st2 := { st1 with consecutiveFailures := 0 }
    if data.isEmpty then StepOut.stop st2
    else
      let validated := data.filterMap validate_and_normalize_dog_data
      if validated.isEmpty then StepOut.next st2
      else
        let r := add_dogs_batch st2.cache validated
        StepOut.next { st2 with cache := r.2, totalFetched := st2.totalFetched + r.1 }

/-- The `for external_page in range(start_page, end_page)` loop of
`fetch_dogs_from_api`, folding `pageStep` until the page list is exhausted
or the body breaks. -/
def runPages (oracle : Nat → Option (List PyVal)) : List Nat → RunState → RunState
  | [], st => st
  | page :: rest, st =>
    match pageStep oracle page st with
    | StepOut.stop st2 => st2
    | StepOut.next st2 => runPages oracle rest st2

/-- The `end_page` computation of `fetch_dogs_from_api`, including the
Python truthiness of `if max_pages:` (both `None` and `0` select the
unbounded run capped at `MAX_EXTERNAL_PAGES`). -/
def endPage (start_page : Nat) (max_pages : Option Nat) : Nat :=
  match max_pages with
  | some m => if m = 0 then MAX_EXTERNAL_PAGES + 1 else min (start_page + m) (MAX_EXTERNAL_PAGES + 1)
  | Option.none => MAX_EXTERNAL_PAGES + 1

/-- Embeds `fetch_dogs_from_api` (`app.py` lines 103-140), parameterized by
the per-page result of `fetch_with_retry` and the initial cache contents. -/
def fetch_dogs_from_api (oracle : Nat → Option (List PyVal)) (start_page : Nat)
    (max_pages : Option Nat) (cache : Store) : RunState :=
  runPages oracle (List.range' start_page (endPage start_page max_pages - start_page))
    { cache := cache, consecutiveFailures := 0, totalFetched := 0, requested := [] }

/-! ## Model of the job scheduler (`background_jobs.py`)

`_run_loop` reads `time.time()` at each pass and sleeps one second between
passes, so poll tick `n` reads the epoch clock `t0 + n`, where `t0` is the
epoch time (in seconds, about 1.7e9 in a real run) at which the loop
starts; `add_job` initializes `last_run` to the literal 0, not to the
registration time.  Whether a job's action raises is an oracle indexed by
job name (and, for multi-tick runs, by tick). -/

structure Job where
  name : String
  interval : Option Nat
  lastRun : Nat
  runOnce : Bool

/-- Embeds `BackgroundJobScheduler.add_job` (`background_jobs.py` lines
19-36): `last_run` starts at 0 and `run_once` holds exactly when no
interval was given. -/
def add_job (name : String) (interval_seconds : Option Nat) : Job :=
  { name := name, interval := interval_seconds, lastRun := 0,
    runOnce := interval_seconds.isNone }

/-- The periodic-job branch of `_run_loop` for one job at clock `now`:
when `now - last_run >= interval` the action runs; a raised exception is
caught and leaves the job unchanged, success sets `last_run := now`. -/
def periodicTick (now : Nat) (fails : String → Bool) (j : Job) : Job :=
  match j.interval with
  | Option.none => j
  | some i =>
    if i ≤ now - j.lastRun then
      if fails j.name then j else { j with lastRun := now }
    else j

/-- One full pass of `_run_loop` over the job list at clock `now`:
one-shot jobs run and are removed (success or failure), periodic jobs go
through `periodicTick`. -/
def loopTick (now : Nat) (fails : String → Bool) (jobs : List Job) : List Job :=
  jobs.filterMap (fun j =>
    if j.runOnce then Option.none else some (periodicTick now fails j))

/-- Whether `_run_loop` invokes job `j`'s action at clock `now`. -/
def jobFires (now : Nat) (j : Job) : Bool :=
  j.runOnce ||
    (match j.interval with
     | Option.none => false
     | some i => decide (i ≤ now - j.lastRun))

/-- The names of the jobs whose actions are invoked at clock `now`. -/
def firedNames (now : Nat) (jobs : List Job) : List String :=
  jobs.filterMap (fun j => if jobFires now j then some j.name else Option.none)

/-- The job list after the poll ticks at epoch clocks
`t0, t0+1, ..., t0+t-1`, for a scheduler whose loop starts at epoch time
`t0` (the value `time.time()` returns at the first pass). -/
def jobsAfter (fails : Nat → String → Bool) (jobs : List Job) (t0 : Nat) : Nat → List Job
  | 0 => jobs
  | t + 1 => loopTick (t0 + t) (fails t) (jobsAfter fails jobs t0 t)

/-- Failure oracle for runs in which no job action ever raises. -/
def noFailures : Nat → String → Bool := fun _ _ => false

/-- A recurring job with a 5-second interval, registered before the
scheduler starts (spec section 8's recurring-job scenario). -/
def recurringJob5 : Job := add_job "periodic_cache_refresh" (some 5)

/-! ## Helper lemmas about the store -/

theorem findk_cons (k : String) (r : String × String) (l : Store) :
    (r :: l).find? (fun x => x.1 == k)
      = if r.1 = k then some r else l.find? (fun x => x.1 == k) := by
  by_cases h : r.1 = k
  · rw [if_pos h]
    exact List.find?_cons_of_pos _ (beq_iff_eq.mpr h)
  · rw [if_neg h]
    exact List.find?_cons_of_neg _ (fun hh => h (beq_iff_eq.mp hh))

theorem find_map_replace (b i k : String) (hne : k ≠ b) (s : Store) :
    (s.map (fun r => if r.1 == b then (b, i) else r)).find? (fun r => r.1 == k)
      = s.find? (fun r => r.1 == k) := by
  induction s with
  | nil => rfl
  | cons r rs ih =>
    rw [List.map_cons]
    by_cases hb : r.1 = b
    · rw [if_pos (beq_iff_eq.mpr hb), findk_cons, findk_cons,
        if_neg (show ¬((b, i).1 = k) from fun hh => hne hh.symm),
        if_neg (show ¬(r.1 = k) from fun hh => hne (hh.symm.trans hb))]
      exact ih
    · rw [if_neg (fun h => hb (beq_iff_eq.mp h)), findk_cons, findk_cons]
      by_cases hk : r.1 = k
      · rw [if_pos hk, if_pos hk]
      · rw [if_neg hk, if_neg hk]
        exact ih

theorem find_map_replace_hit (b i : String) (s : Store) (hp : keyPresent s b = true) :
    (s.map (fun r => if r.1 == b then (b, i) else r)).find? (fun r => r.1 == b)
      = some (b, i) := by
  induction s with
  | nil => simp [keyPresent] at hp
  | cons r rs ih =>
    rw [List.map_cons]
    by_cases hb : r.1 = b
    · rw [if_pos (beq_iff_eq.mpr hb), findk_cons,
        if_pos (show (b, i).1 = b from rfl)]
    · have hp' : keyPresent rs b = true := by
        obtain ⟨r2, hr2, hr2b⟩ := List.any_eq_true.mp hp
        rcases List.mem_cons.mp hr2 with h1 | h1
        · exact absurd (beq_iff_eq.mp (h1 ▸ hr2b)) hb
        · exact List.any_eq_true.mpr ⟨r2, h1, hr2b⟩
      rw [if_neg (fun h => hb (beq_iff_eq.mp h)), findk_cons, if_neg hb]
      exact ih hp'

theorem find_append_single (b i k : String) (s : Store) :
    ((s ++ [(b, i)]).find? (fun r => r.1 == k))
      = match s.find? (fun r => r.1 == k) with
        | some p => some p
        | Option.none => if b == k then some (b, i) else Option.none := by
  induction s with
  | nil =>
    rw [List.nil_append, findk_cons]
    show (if (b, i).1 = k then some (b, i) else List.find? (fun r => r.1 == k) [])
      = if (b == k) = true then some (b, i) else Option.none
    by_cases hk : b = k
    · rw [if_pos (show (b, i).1 = k from hk),
        if_pos (show (b == k) = true from beq_iff_eq.mpr hk)]
    · rw [if_neg (show ¬((b, i).1 = k) from hk),
        if_neg (show ¬((b == k) = true) from fun h => hk (beq_iff_eq.mp h))]
      rfl
  | cons r rs ih =>
    rw [List.cons_append, findk_cons, findk_cons]
    by_cases hk : r.1 = k
    · rw [if_pos hk, if_pos hk]
    · rw [if_neg hk, if_neg hk]
      exact ih

theorem find_none_of_absent (b : String) (s : Store) (h : keyPresent s b = false) :
    s.find? (fun r => r.1 == b) = Option.none := by
  rw [List.find?_eq_none]
  intro x hx hpx
  have : keyPresent s b = true := List.any_eq_true.mpr ⟨x, hx, hpx⟩
  rw [this] at h
  exact Bool.noConfusion h

theorem rawLookup_upsert (s : Store) (b i k : String) :
    rawLookup (upsertRow s b i) k = if k = b then some i else rawLookup s k := by
  unfold upsertRow rawLookup
  by_cases hp : keyPresent s b = true
  · rw [if_pos hp]
    by_cases hk : k = b
    · rw [if_pos hk, hk, find_map_replace_hit b i s hp]
      rfl
    · rw [if_neg hk, find_map_replace b i k hk s]
  · rw [if_neg hp, find_append_single b i k s]
    by_cases hk : k = b
    · rw [if_pos hk, hk, find_none_of_absent b s (by simpa using hp)]
      simp
    · rw [if_neg hk]
      cases hf : s.find? (fun r => r.1 == k) with
      | some p => rfl
      | none =>
        have hbk : (b == k) = false := by
          rw [beq_eq_false_iff_ne]
          exact fun h => hk h.symm
        simp [hbk]

theorem rawLookup_applyB_miss (dogs : List DogRecord) :
    ∀ (s : Store) (k : String), lastVal dogs k = Option.none →
      rawLookup (applyB s dogs) k = rawLookup s k := by
  induction dogs with
  | nil => intro s k _; rfl
  | cons d ds ih =>
    intro s k h
    unfold lastVal at h
    cases hl : lastVal ds k with
    | some v => rw [hl] at h; exact Option.noConfusion h
    | none =>
      rw [hl] at h
      have hb : ¬ d.breed = k := by
        intro hbk
        rw [if_pos (beq_iff_eq.mpr hbk)] at h
        exact Option.noConfusion h
      have h1 : applyB s (d :: ds) = applyB (upsertRow s d.breed d.image) ds := rfl
      rw [h1, ih _ _ hl, rawLookup_upsert, if_neg (fun hkk => hb hkk.symm)]

theorem rawLookup_applyB_hit (dogs : List DogRecord) :
    ∀ (s : Store) (k v : String), lastVal dogs k = some v →
      rawLookup (applyB s dogs) k = some v := by
  induction dogs with
  | nil => intro s k v h; exact Option.noConfusion h
  | cons d ds ih =>
    intro s k v h
    unfold lastVal at h
    have h1 : applyB s (d :: ds) = applyB (upsertRow s d.breed d.image) ds := rfl
    cases hl : lastVal ds k with
    | some w =>
      rw [hl] at h
      have hwv : w = v := by
        have := h
        simp at this
        exact this
      rw [h1]
      exact ih _ _ _ (hwv ▸ hl)
    | none =>
      rw [hl] at h
      by_cases hbk : d.breed = k
      · have hv : d.image = v := by
          rw [if_pos (beq_iff_eq.mpr hbk)] at h
          have := h
          simp at this
          exact this
        rw [h1, rawLookup_applyB_miss ds _ _ hl, rawLookup_upsert,
          if_pos hbk.symm, hv]
      · rw [if_neg (fun hh => hbk (beq_iff_eq.mp hh))] at h
        exact Option.noConfusion h

theorem foldl_count (dogs : List DogRecord) :
    ∀ (c : Nat) (s : Store),
      dogs.foldl (fun acc d => (acc.1 + 1, upsertRow acc.2 d.breed d.image)) (c, s)
        = (c + dogs.length, applyB s dogs) := by
  induction dogs with
  | nil => intro c s; simp [applyB]
  | cons d ds ih =>
    intro c s
    rw [List.foldl_cons, ih]
    simp only [Prod.mk.injEq, List.length_cons]
    exact ⟨by omega, rfl⟩

theorem add_dogs_batch_store (s : Store) (dogs : List DogRecord) :
    (add_dogs_batch s dogs).2 = applyB s dogs := by
  cases dogs with
  | nil => rfl
  | cons d ds =>
    unfold add_dogs_batch
    rw [if_neg (by simp), foldl_count]

theorem keys_map_replace (b i : String) (s : Store) :
    (s.map (fun r => if r.1 == b then (b, i) else r)).map Prod.fst = s.map Prod.fst := by
  induction s with
  | nil => rfl
  | cons r rs ih =>
    have hd : (if r.1 == b then (b, i) else r).1 = r.1 := by
      by_cases hb : r.1 = b
      · rw [if_pos (beq_iff_eq.mpr hb)]
        exact hb.symm
      · rw [if_neg (fun h => hb (beq_iff_eq.mp h))]
    rw [List.map_cons, List.map_cons, List.map_cons, hd, ih]

theorem not_mem_keys_of_absent (b : String) (s : Store) (h : keyPresent s b = false) :
    b ∉ s.map Prod.fst := by
  intro hmem
  obtain ⟨r, hr, hrb⟩ := List.mem_map.mp hmem
  have : keyPresent s b = true := by
    unfold keyPresent
    exact List.any_eq_true.mpr ⟨r, hr, by simp [hrb]⟩
  rw [this] at h
  exact Bool.noConfusion h

theorem keys_upsert_nodup (s : Store) (b i : String) (h : (s.map Prod.fst).Nodup) :
    ((upsertRow s b i).map Prod.fst).Nodup := by
  unfold upsertRow
  by_cases hp : keyPresent s b = true
  · rw [if_pos hp, keys_map_replace]
    exact h
  · rw [if_neg hp]
    have hb := not_mem_keys_of_absent b s (by simpa using hp)
    simp [List.nodup_append, h, hb]

theorem keys_applyB_nodup (dogs : List DogRecord) :
    ∀ s : Store, (s.map Prod.fst).Nodup → ((applyB s dogs).map Prod.fst).Nodup := by
  induction dogs with
  | nil => intro s h; exact h
  | cons d ds ih =>
    intro s h
    exact ih _ (keys_upsert_nodup s d.breed d.image h)

theorem present_upsert (s : Store) (b i k : String) (h : ∃ r ∈ s, r.1 = k) :
    ∃ r ∈ upsertRow s b i, r.1 = k := by
  obtain ⟨r, hr, hrk⟩ := h
  unfold upsertRow
  by_cases hp : keyPresent s b = true
  · rw [if_pos hp]
    refine ⟨if r.1 == b then (b, i) else r, List.mem_map_of_mem _ hr, ?_⟩
    by_cases hb : r.1 = b
    · rw [if_pos (beq_iff_eq.mpr hb)]
      exact show (b, i).1 = k from hb ▸ hrk
    · rw [if_neg (fun h => hb (beq_iff_eq.mp h))]
      exact hrk
  · rw [if_neg hp]
    exact ⟨r, List.mem_append_left _ hr, hrk⟩

theorem present_applyB (dogs : List DogRecord) :
    ∀ (s : Store) (k : String), (∃ r ∈ s, r.1 = k) → ∃ r ∈ applyB s dogs, r.1 = k := by
  induction dogs with
  | nil => intro s k h; exact h
  | cons d ds ih =>
    intro s k h
    exact ih _ _ (present_upsert s d.breed d.image k h)

theorem findSome_iff (k : String) (l : Store) :
    ((l.find? (fun r => r.1 == k)).isSome = true) ↔ ∃ r ∈ l, r.1 = k := by
  induction l with
  | nil => simp [List.find?]
  | cons r rs ih =>
    rw [findk_cons]
    by_cases hk : r.1 = k
    · rw [if_pos hk]
      simp only [Option.isSome_some]
      exact iff_of_true trivial ⟨r, List.mem_cons_self r rs, hk⟩
    · rw [if_neg hk]
      simp [ih, hk]

theorem insertByKey_perm (x : String × String) (l : List (String × String)) :
    List.Perm (insertByKey x l) (x :: l) := by
  induction l with
  | nil => exact List.Perm.refl _
  | cons y ys ih =>
    unfold insertByKey
    by_cases h : lexLe x.1.toList y.1.toList = true
    · rw [if_pos h]
    · rw [if_neg h]
      exact (List.Perm.cons y ih).trans (List.Perm.swap x y ys)

theorem sortByKey_perm (l : List (String × String)) :
    List.Perm (sortByKey l) l := by
  induction l with
  | nil => exact List.Perm.refl _
  | cons x xs ih =>
    exact (insertByKey_perm x (sortByKey xs)).trans (List.Perm.cons x ih)

theorem find_of_mem_nodup (k : String) (l : Store) (h : (l.map Prod.fst).Nodup)
    (p : String × String) (hp : p ∈ l) (hk : p.1 = k) :
    l.find? (fun r => r.1 == k) = some p := by
  induction l with
  | nil => cases hp
  | cons x xs ih =>
    rw [List.map_cons, List.nodup_cons] at h
    rw [findk_cons]
    by_cases hx : x.1 = k
    · have hxp : p = x := by
        rcases List.mem_cons.mp hp with h1 | h1
        · exact h1
        · exact absurd (List.mem_map.mpr ⟨p, h1, (hk.trans hx.symm)⟩) h.1
      rw [if_pos hx, hxp]
    · have hpxs : p ∈ xs := by
        rcases List.mem_cons.mp hp with h1 | h1
        · exact absurd (h1 ▸ hk) hx
        · exact h1
      rw [if_neg hx]
      exact ih h.2 hpxs

theorem rawLookup_sortByKey (t : Store) (h : (t.map Prod.fst).Nodup) (k : String) :
    rawLookup (sortByKey t) k = rawLookup t k := by
  unfold rawLookup
  cases hf : t.find? (fun r => r.1 == k) with
  | none =>
    have hall := List.find?_eq_none.mp hf
    have : (sortByKey t).find? (fun r => r.1 == k) = Option.none :=
      List.find?_eq_none.mpr (fun x hx => hall x ((sortByKey_perm t).mem_iff.mp hx))
    rw [this]
  | some p =>
    have hpk : p.1 = k := by simpa [beq_iff_eq] using List.find?_some hf
    have hpt : p ∈ t := List.mem_of_find?_eq_some hf
    have hsort_nodup : ((sortByKey t).map Prod.fst).Nodup :=
      (((sortByKey_perm t).map Prod.fst).nodup_iff).mpr h
    rw [find_of_mem_nodup k (sortByKey t) hsort_nodup p
      ((sortByKey_perm t).mem_iff.mpr hpt) hpk]

/-! ## Helper lemmas about the orchestrator -/

theorem runPages_cons (oracle : Nat → Option (List PyVal)) (page : Nat) (rest : List Nat)
    (st : RunState) :
    runPages oracle (page :: rest) st
      = match pageStep oracle page st with
        | StepOut.stop st2 => st2
        | StepOut.next st2 => runPages oracle rest st2 := rfl

theorem pageStep_fail (oracle : Nat → Option (List PyVal)) (page : Nat) (st : RunState)
    (h : oracle page = Option.none) :
    pageStep oracle page st
      = (if 10 ≤ st.consecutiveFailures + 1 then StepOut.stop else StepOut.next)
          { st with consecutiveFailures := st.consecutiveFailures + 1,
                    requested := st.requested ++ [page] } := by
  unfold pageStep
  rw [h, ite_apply]

theorem pageStep_empty (oracle : Nat → Option (List PyVal)) (page : Nat) (st : RunState)
    (h : oracle page = some []) :
    pageStep oracle page st
      = StepOut.stop
          { st with consecutiveFailures := 0, requested := st.requested ++ [page] } := by
  unfold pageStep
  rw [h]
  exact rfl

theorem pageStep_items (oracle : Nat → Option (List PyVal)) (page : Nat) (st : RunState)
    (x : PyVal) (xs : List PyVal) (h : oracle page = some (x :: xs)) :
    ∃ st2, pageStep oracle page st = StepOut.next st2
      ∧ st2.consecutiveFailures = 0 ∧ st2.requested = st.requested ++ [page] := by
  have hred : pageStep oracle page st
      = (if ((x :: xs).filterMap validate_and_normalize_dog_data).isEmpty = true then
          StepOut.next
            { st with consecutiveFailures := 0, requested := st.requested ++ [page] }
        else
          StepOut.next
            { cache :=
                (add_dogs_batch st.cache
                  ((x :: xs).filterMap validate_and_normalize_dog_data)).2,
              consecutiveFailures := 0,
              totalFetched := st.totalFetched
                + (add_dogs_batch st.cache
                    ((x :: xs).filterMap validate_and_normalize_dog_data)).1,
              requested := st.requested ++ [page] }) := by
    unfold pageStep
    rw [h]
    exact rfl
  rw [hred]
  by_cases hv : ((x :: xs).filterMap validate_and_normalize_dog_data).isEmpty = true
  · rw [if_pos hv]
    exact ⟨_, rfl, rfl, rfl⟩
  · rw [if_neg hv]
    exact ⟨_, rfl, rfl, rfl⟩

theorem runPages_allFail (oracle : Nat → Option (List PyVal)) (pages : List Nat) :
    ∀ st : RunState, (∀ p ∈ pages, oracle p = Option.none) →
      st.consecutiveFailures < 10 →
      (runPages oracle pages st).requested
        = st.requested ++ pages.take (10 - st.consecutiveFailures) := by
  induction pages with
  | nil => intro st _ _; simp [runPages]
  | cons p rest ih =>
    intro st hfail hcf
    have hp : oracle p = Option.none := hfail p (List.mem_cons_self p rest)
    rw [runPages_cons, pageStep_fail oracle p st hp]
    by_cases hstop : 10 ≤ st.consecutiveFailures + 1
    · rw [if_pos hstop]
      have hcf9 : st.consecutiveFailures = 9 := by omega
      have htake : (p :: rest).take (10 - st.consecutiveFailures) = [p] := by
        rw [hcf9]
        exact rfl
      rw [htake]
    · rw [if_neg hstop]
      have hcf' : st.consecutiveFailures + 1 < 10 := by omega
      have hfail' : ∀ q ∈ rest, oracle q = Option.none :=
        fun q hq => hfail q (List.mem_cons_of_mem _ hq)
      show (runPages oracle rest
          { st with consecutiveFailures := st.consecutiveFailures + 1,
                    requested := st.requested ++ [p] }).requested
        = st.requested ++ (p :: rest).take (10 - st.consecutiveFailures)
      rw [ih _ hfail' hcf']
      show (st.requested ++ [p]) ++ rest.take (10 - (st.consecutiveFailures + 1))
        = st.requested ++ (p :: rest).take (10 - st.consecutiveFailures)
      have h10 : 10 - st.consecutiveFailures = (10 - (st.consecutiveFailures + 1)) + 1 := by
        omega
      rw [h10, List.take_succ_cons, List.append_assoc]
      rfl

theorem runPages_okPages (oracle : Nat → Option (List PyVal)) (pages : List Nat) :
    ∀ (st : RunState) (rest : List Nat),
      (∀ p ∈ pages, ∃ x xs, oracle p = some (x :: xs)) →
      ∃ st2, runPages oracle (pages ++ rest) st = runPages oracle rest st2
        ∧ st2.requested = st.requested ++ pages := by
  induction pages with
  | nil => intro st rest _; exact ⟨st, rfl, by simp⟩
  | cons p ps ih =>
    intro st rest hok
    obtain ⟨x, xs, hp⟩ := hok p (List.mem_cons_self p ps)
    obtain ⟨st1, hstep, _, hreq1⟩ := pageStep_items oracle p st x xs hp
    obtain ⟨st2, hrun, hreq2⟩ := ih st1 rest (fun q hq => hok q (List.mem_cons_of_mem _ hq))
    refine ⟨st2, ?_, ?_⟩
    · rw [List.cons_append, runPages_cons, hstep]
      exact hrun
    · rw [hreq2, hreq1, List.append_assoc]
      rfl

/-! ## Helper lemmas about slicing and the scheduler -/

theorem take_toNat_nil {α : Type} (l : List α) (s e : Int) (hle : e ≤ s) :
    (l.drop s.toNat).take (e - s).toNat = [] := by
  have h0 : (e - s).toNat = 0 := by omega
  rw [h0, List.take_zero]

theorem pySlice_nil {α : Type} (l : List α) (a b : Int)
    (h : b = 0 ∨ ((l.length : Int) ≤ a ∧ 0 ≤ a)) : pySlice l a b = [] := by
  have hn : (0 : Int) ≤ (l.length : Int) := Int.ofNat_nonneg _
  unfold pySlice
  dsimp only
  rcases h with hb | ⟨ha, ha0⟩
  · subst hb
    split_ifs <;> exact take_toNat_nil l _ _ (by omega)
  · split_ifs <;> exact take_toNat_nil l _ _ (by omega)

theorem loopTick_length (now : Nat) (fails : String → Bool) (jobs : List Job) :
    (loopTick now fails jobs).length = (jobs.filter (fun x => !x.runOnce)).length := by
  induction jobs with
  | nil => rfl
  | cons j js ih =>
    unfold loopTick at ih ⊢
    cases hro : j.runOnce with
    | true => simp [List.filterMap_cons, List.filter_cons, hro, ih]
    | false => simp [List.filterMap_cons, List.filter_cons, hro, ih]

/-! ## Helper lemmas for the validator -/

theorem string_length_zero (s : String) : s.length = 0 ↔ s = "" := by
  rw [String.ext_iff]
  show s.data.length = 0 ↔ s.data = []
  exact List.length_eq_zero

theorem guard_str (u : String) :
    (!(u != "") || !true || ((pyStrip u).length == 0)) = (pyStrip u == "") := by
  simp only [Bool.not_true, Bool.false_or]
  by_cases hu : pyStrip u = ""
  · simp [hu]
  · have h0 : ¬ u = "" := fun h => hu (by rw [h]; exact rfl)
    have hbu : (u != "") = true := bne_iff_ne.mpr h0
    have hbL : ((pyStrip u).length == 0) = false := by
      rw [beq_eq_false_iff_ne]
      exact fun h => hu ((string_length_zero (pyStrip u)).mp h)
    have hbu2 : (pyStrip u == "") = false := by
      rw [beq_eq_false_iff_ne]
      exact hu
    rw [hbu, hbL, hbu2]
    rfl

theorem guard_strP (u : String) :
    (!(PyVal.str u).truthy || !(PyVal.str u).isStr || ((pyStrip u).length == 0))
      = (pyStrip u == "") := by
  show (!(u != "") || !true || ((pyStrip u).length == 0)) = (pyStrip u == "")
  exact guard_str u

theorem image_norm_eq (d : List (String × PyVal)) :
    (if !(pyGet d "image").truthy || !(pyGet d "image").isStr
        || ((pyStrip (pyGet d "image").asStr).length == 0) then ""
      else pyStrip (pyGet d "image").asStr) = imageSpec d := by
  unfold imageSpec
  cases hfi : d.find? (fun p => p.1 == "image") with
  | none =>
    rw [show pyGet d "image" = PyVal.none from by unfold pyGet; rw [hfi]]
    exact rfl
  | some q =>
    obtain ⟨qk, qv⟩ := q
    rw [show pyGet d "image" = qv from by unfold pyGet; rw [hfi]]
    dsimp only
    cases qv with
    | str u =>
      dsimp only [PyVal.truthy, PyVal.isStr, PyVal.asStr]
      rw [guard_str]
      by_cases hu : pyStrip u = ""
      · rw [if_pos (show (pyStrip u == "") = true from beq_iff_eq.mpr hu), if_pos hu]
      · rw [if_neg (show ¬((pyStrip u == "") = true) from fun h => hu (beq_iff_eq.mp h)),
          if_neg hu]
    | none => exact rfl
    | bool b => cases b <;> exact rfl
    | int n => rw [if_pos (by simp [PyVal.truthy, PyVal.isStr])]
    | list l => rw [if_pos (by simp [PyVal.truthy, PyVal.isStr])]
    | dict d2 => rw [if_pos (by simp [PyVal.truthy, PyVal.isStr])]

/-! ## Claim theorems -/

/-- C1: the claim fails on the code.  `add_job` initializes `last_run` to
the literal 0 while `_run_loop` compares against `time.time()` epoch
seconds, so at the very first poll tick of any real run — epoch clock
`t0 ≥ 5`, in practice about 1.7e9 — the test `now - last_run >= 5`
already holds and the recurring 5-second job's action is invoked
immediately, roughly 0 seconds after registration, not at the first tick
with at least 5 seconds elapsed.  The first conjunct shows the job fires
at the first tick's clock `t0`; the second shows that tick processes the
job list exactly as registered. -/
theorem recurring_job_fires_at_first_tick (t0 : Nat) (h : 5 ≤ t0) :
    jobFires t0 recurringJob5 = true
    ∧ jobsAfter noFailures [recurringJob5] t0 0 = [recurringJob5] := by
  constructor
  · show decide (5 ≤ t0 - 0) = true
    exact decide_eq_true (by omega)
  · rfl

/-- C1 witness: at the realistic epoch start clock 1760000000 the job
fires at the very first poll tick. -/
theorem recurring_job_fires_at_first_tick_witness :
    jobFires 1760000000 recurringJob5 = true
    ∧ jobsAfter noFailures [recurringJob5] 1760000000 0 = [recurringJob5] :=
  recurring_job_fires_at_first_tick 1760000000 (by decide)

/-- C3: on every raw input, `validate_and_normalize_dog_data` agrees with
the specification's validator: it rejects exactly the non-record inputs,
the absent/non-string/blank-after-trim breeds and the corrupted breeds
(over-60-characters, URL scheme, or image-file extension,
case-insensitively), and otherwise returns the trimmed breed together
with the image normalized to the empty string when absent, not a string,
or empty after trimming. -/
theorem validator_matches_spec (data : PyVal) :
    validate_and_normalize_dog_data data = normalize_spec data := by
  cases data with
  | none => rfl
  | bool b => rfl
  | int n => rfl
  | str s => rfl
  | list l => rfl
  | dict d =>
    unfold validate_and_normalize_dog_data normalize_spec
    dsimp only
    cases hfb : d.find? (fun p => p.1 == "breed") with
    | none =>
      rw [show pyGet d "breed" = PyVal.none from by unfold pyGet; rw [hfb]]
      exact rfl
    | some p =>
      obtain ⟨pk, pv⟩ := p
      rw [show pyGet d "breed" = pv from by unfold pyGet; rw [hfb]]
      dsimp only
      cases pv with
      | str s =>
        dsimp only
        rw [show (PyVal.str s).asStr = s from rfl, image_norm_eq d, guard_strP s]
        by_cases htrim : pyStrip s = ""
        · rw [if_pos (show (pyStrip s == "") = true from beq_iff_eq.mpr htrim),
            if_pos htrim]
        · rw [if_neg (show ¬((pyStrip s == "") = true) from
              fun h => htrim (beq_iff_eq.mp h)),
            if_neg htrim]
      | none => exact rfl
      | bool b => cases b <;> exact rfl
      | int n => rw [if_pos (by simp [PyVal.truthy, PyVal.isStr])]
      | list l => rw [if_pos (by simp [PyVal.truthy, PyVal.isStr])]
      | dict d2 => rw [if_pos (by simp [PyVal.truthy, PyVal.isStr])]

/-- C4: on a page whose every upstream attempt fails, `fetch_with_retry`
makes exactly three requests, sleeps 1 second after the first failed
attempt and 2 seconds after the second, returns failure, and never makes
a fourth request. -/
theorem fetch_retry_three_failures (upstream : Nat → AttemptResult)
    (h : ∀ a, (upstream a).isOk = false) :
    fetch_with_retry upstream
      = ([FetchEvent.request 1, FetchEvent.sleep 1, FetchEvent.request 2,
          FetchEvent.sleep 2, FetchEvent.request 3], Option.none) := by
  have h1 := h 1
  have h2 := h 2
  have h3 := h 3
  cases e1 : upstream 1
  case ok d =>
    rw [e1] at h1
    exact absurd h1 (by simp [AttemptResult.isOk])
  all_goals
    (cases e2 : upstream 2
     case ok d =>
       rw [e2] at h2
       exact absurd h2 (by simp [AttemptResult.isOk])
     all_goals
       (cases e3 : upstream 3
        case ok d =>
          rw [e3] at h3
          exact absurd h3 (by simp [AttemptResult.isOk])
        all_goals
          simp [fetch_with_retry, retryGo, MAX_RETRIES, RETRY_DELAY,
            List.range', e1, e2, e3]))

/-- C4 witness: the theorem instantiated at an upstream that always
raises a network error. -/
theorem fetch_retry_three_failures_witness :
    fetch_with_retry (fun _ => AttemptResult.netError)
      = ([FetchEvent.request 1, FetchEvent.sleep 1, FetchEvent.request 2,
          FetchEvent.sleep 2, FetchEvent.request 3], Option.none) :=
  fetch_retry_three_failures (fun _ => AttemptResult.netError) (fun _ => rfl)

theorem map_isSome {α β : Type} (f : α → β) (o : Option α) :
    ((o.map f).isSome) = o.isSome := by
  cases o <;> rfl

theorem rawLookup_isSome (l : Store) (k : String) :
    ((rawLookup l k).isSome = true) ↔ ∃ r ∈ l, r.1 = k := by
  unfold rawLookup
  rw [map_isSome]
  exact findSome_iff k l

/-- C2 (amended): the paginated read endpoint answers page 0 and every
page past the last populated page with the empty list and status 200;
negative page values fall to Python's negative-index slicing instead and
are excluded (see the counterexample). -/
theorem get_dogs_out_of_range_empty (s : Store) (page : Int)
    (h : page = 0 ∨ (1 ≤ page ∧
      ((get_all_dogs_dict s).length : Int) ≤ (page - 1) * (ITEMS_PER_PAGE : Int))) :
    get_dogs s page = ([], 200) := by
  unfold get_dogs
  dsimp only
  rw [pySlice_nil]
  rw [show (ITEMS_PER_PAGE : Int) = 15 from rfl] at h ⊢
  rcases h with h0 | ⟨h1, h2⟩
  · left
    omega
  · right
    exact ⟨h2, by omega⟩

/-- C2 witness: page 5 of a one-record store is past the last populated
page and yields the empty list. -/
theorem get_dogs_out_of_range_empty_witness :
    get_dogs [("a", "")] 5 = ([], 200) :=
  get_dogs_out_of_range_empty [("a", "")] 5 (Or.inr ⟨by decide, by decide⟩)

/-- C2 counterexample: with 16 records in the store, the out-of-range page
-1 (less than 1) does not return an empty list — Python's negative-index
slicing surfaces the first record instead. -/
theorem get_dogs_negative_page_counterexample :
    (get_dogs
      [("b01", ""), ("b02", ""), ("b03", ""), ("b04", ""), ("b05", ""), ("b06", ""),
       ("b07", ""), ("b08", ""), ("b09", ""), ("b10", ""), ("b11", ""), ("b12", ""),
       ("b13", ""), ("b14", ""), ("b15", ""), ("b16", "")] (-1)).1 ≠ [] := by
  decide

/-- C5: a page failure increments consecutive_failures and stops the run
exactly when the counter reaches 10; a failure below the threshold skips
the page and continues with the next one; a successful page with items
resets the counter to 0; and when every page from 3 on fails, a run
starting at page 3 requests exactly pages 3..12 and never requests page
13 or any later page. -/
theorem consecutive_failures_policy (oracle : Nat → Option (List PyVal)) :
    (∀ page st, oracle page = Option.none →
      pageStep oracle page st
        = (if 10 ≤ st.consecutiveFailures + 1 then StepOut.stop else StepOut.next)
            { st with consecutiveFailures := st.consecutiveFailures + 1,
                      requested := st.requested ++ [page] })
    ∧ (∀ page rest st, oracle page = Option.none →
        st.consecutiveFailures + 1 < 10 →
        runPages oracle (page :: rest) st
          = runPages oracle rest
              { st with consecutiveFailures := st.consecutiveFailures + 1,
                        requested := st.requested ++ [page] })
    ∧ (∀ page st (x : PyVal) (xs : List PyVal), oracle page = some (x :: xs) →
        ∃ st2, pageStep oracle page st = StepOut.next st2
          ∧ st2.consecutiveFailures = 0 ∧ st2.requested = st.requested ++ [page])
    ∧ ((∀ p, 3 ≤ p → oracle p = Option.none) →
        (fetch_dogs_from_api oracle 3 Option.none []).requested = List.range' 3 10
        ∧ ∀ q, 13 ≤ q → q ∉ (fetch_dogs_from_api oracle 3 Option.none []).requested) := by
  refine ⟨?_, ?_, ?_, ?_⟩
  · intro page st hfail
    exact pageStep_fail oracle page st hfail
  · intro page rest st hfail hlt
    rw [runPages_cons, pageStep_fail oracle page st hfail, if_neg (by omega)]
  · intro page st x xs hok
    exact pageStep_items oracle page st x xs hok
  · intro hfail
    have hf : ∀ p ∈ List.range' 3 48, oracle p = Option.none := by
      intro p hp
      obtain ⟨i, hi, rfl⟩ := List.mem_range'.mp hp
      exact hfail (3 + 1 * i) (by omega)
    have hrun : (fetch_dogs_from_api oracle 3 Option.none []).requested
        = List.range' 3 10 := by
      unfold fetch_dogs_from_api
      rw [show endPage 3 Option.none - 3 = 48 from rfl]
      rw [runPages_allFail oracle (List.range' 3 48)
        { cache := [], consecutiveFailures := 0, totalFetched := 0, requested := [] }
        hf (by decide)]
      exact rfl
    refine ⟨hrun, ?_⟩
    intro q hq hmem
    rw [hrun] at hmem
    obtain ⟨i, hi, rfl⟩ := List.mem_range'.mp hmem
    omega

/-- C5 witness: the run-level conclusion instantiated at an oracle that
fails on every page. -/
theorem consecutive_failures_policy_witness :
    (fetch_dogs_from_api (fun _ => Option.none) 3 Option.none []).requested
      = List.range' 3 10 :=
  ((consecutive_failures_policy (fun _ => Option.none)).2.2.2 (fun _ _ => rfl)).1

/-- C6: a successful fetch with zero items stops the ingestion run
immediately — the loop body breaks and no later page is requested; in
particular, when pages 1-6 succeed with items and page 7 is empty, the run
requests exactly pages 1..7 and never page 8 or any later page. -/
theorem empty_page_stops_run (oracle : Nat → Option (List PyVal)) :
    (∀ page st, oracle page = some [] →
      pageStep oracle page st
        = StepOut.stop { st with consecutiveFailures := 0,
                                 requested := st.requested ++ [page] })
    ∧ (∀ page rest st, oracle page = some [] →
        (runPages oracle (page :: rest) st).requested = st.requested ++ [page])
    ∧ ((∀ p, 1 ≤ p → p < 7 → ∃ d, oracle p = some d ∧ d ≠ []) →
        oracle 7 = some [] →
        (fetch_dogs_from_api oracle 1 Option.none []).requested = List.range' 1 7
        ∧ ∀ q, 8 ≤ q → q ∉ (fetch_dogs_from_api oracle 1 Option.none []).requested) := by
  refine ⟨?_, ?_, ?_⟩
  · intro page st hempty
    exact pageStep_empty oracle page st hempty
  · intro page rest st hempty
    rw [runPages_cons, pageStep_empty oracle page st hempty]
  · intro hok h7
    have hokl : ∀ p ∈ List.range' 1 6, ∃ x xs, oracle p = some (x :: xs) := by
      intro p hp
      obtain ⟨i, hi, rfl⟩ := List.mem_range'.mp hp
      obtain ⟨d, hd, hdne⟩ := hok (1 + 1 * i) (by omega) (by omega)
      cases d with
      | nil => exact absurd rfl hdne
      | cons x xs => exact ⟨x, xs, hd⟩
    have hrun : (fetch_dogs_from_api oracle 1 Option.none []).requested
        = List.range' 1 7 := by
      unfold fetch_dogs_from_api
      rw [show List.range' 1 (endPage 1 Option.none - 1)
        = List.range' 1 6 ++ (7 :: List.range' 8 43) from rfl]
      obtain ⟨st2, heq, hreq⟩ := runPages_okPages oracle (List.range' 1 6)
        { cache := [], consecutiveFailures := 0, totalFetched := 0, requested := [] }
        (7 :: List.range' 8 43) hokl
      rw [heq, runPages_cons, pageStep_empty oracle 7 st2 h7]
      show st2.requested ++ [7] = List.range' 1 7
      rw [hreq]
      exact rfl
    refine ⟨hrun, ?_⟩
    intro q hq hmem
    rw [hrun] at hmem
    obtain ⟨i, hi, rfl⟩ := List.mem_range'.mp hmem
    omega

/-- C6 witness: the run-level conclusion at an oracle whose pages below 7
hold one (rejected) item and whose page 7 is empty. -/
theorem empty_page_stops_run_witness :
    (fetch_dogs_from_api (fun p => if p < 7 then some [PyVal.none] else some [])
        1 Option.none []).requested = List.range' 1 7 :=
  ((empty_page_stops_run (fun p => if p < 7 then some [PyVal.none] else some [])).2.2
    (fun p h1 h7 => ⟨[PyVal.none], by rw [if_pos h7], by simp⟩)
    rfl).1

/-- C7: batch upsert is idempotent and last-write-wins on the key-to-value
snapshot: for every uniquely-keyed store, applying the same batch twice
yields the same snapshot mapping as applying it once, and upserting key k
with value a and then, in a separate batch, with value b leaves the
snapshot holding b at k. -/
theorem upsert_idempotent_last_write_wins (s : Store) (batch : List DogRecord)
    (hs : (s.map Prod.fst).Nodup) :
    (∀ k, rawLookup (get_all_dogs_dict
            ((add_dogs_batch ((add_dogs_batch s batch).2) batch).2)) k
        = rawLookup (get_all_dogs_dict ((add_dogs_batch s batch).2)) k)
    ∧ (∀ key a b : String,
        rawLookup (get_all_dogs_dict
            ((add_dogs_batch ((add_dogs_batch s [⟨key, a⟩]).2) [⟨key, b⟩]).2)) key
          = some b) := by
  constructor
  · intro k
    rw [add_dogs_batch_store, add_dogs_batch_store]
    unfold get_all_dogs_dict
    rw [rawLookup_sortByKey _ (keys_applyB_nodup batch _ (keys_applyB_nodup batch s hs)) k,
      rawLookup_sortByKey _ (keys_applyB_nodup batch s hs) k]
    cases hl : lastVal batch k with
    | some v =>
      rw [rawLookup_applyB_hit batch _ _ _ hl, rawLookup_applyB_hit batch _ _ _ hl]
    | none =>
      rw [rawLookup_applyB_miss batch _ _ hl]
  · intro key a b
    rw [add_dogs_batch_store, add_dogs_batch_store]
    unfold get_all_dogs_dict
    rw [rawLookup_sortByKey _
      (keys_applyB_nodup [⟨key, b⟩] _ (keys_applyB_nodup [⟨key, a⟩] s hs)) key]
    have hl : lastVal [(⟨key, b⟩ : DogRecord)] key = some b := by
      simp [lastVal]
    rw [rawLookup_applyB_hit [⟨key, b⟩] _ _ _ hl]

/-- C7 witness: upserting k=a then k=b over a one-record store leaves the
snapshot holding b at k. -/
theorem upsert_idempotent_last_write_wins_witness :
    rawLookup (get_all_dogs_dict
        ((add_dogs_batch ((add_dogs_batch [("x", "1")] [⟨"k", "a"⟩]).2) [⟨"k", "b"⟩]).2)) "k"
      = some "b" :=
  (upsert_idempotent_last_write_wins [("x", "1")] [] (by decide)).2 "k" "a" "b"

/-- C8: an exception in a recurring job's action is caught: the job stays
in the list with lastRun unchanged and is eligible again at the very next
poll tick; lastRun changes only on successful completion, where it becomes
the current tick's clock; the loop processes every job regardless of
failures. -/
theorem failed_recurring_job_retries_next_tick (now : Nat) (fails : String → Bool)
    (j : Job) (i : Nat) (_hro : j.runOnce = false) (hi : j.interval = some i) :
    (i ≤ now - j.lastRun → fails j.name = true →
      periodicTick now fails j = j ∧ i ≤ (now + 1) - j.lastRun)
    ∧ ((periodicTick now fails j).lastRun ≠ j.lastRun →
      fails j.name = false ∧ i ≤ now - j.lastRun
        ∧ (periodicTick now fails j).lastRun = now)
    ∧ (∀ jobs : List Job, (loopTick now fails jobs).length
        = (jobs.filter (fun x => !x.runOnce)).length) := by
  have hpe : periodicTick now fails j
      = if i ≤ now - j.lastRun then
          (if fails j.name then j else { j with lastRun := now })
        else j := by
    unfold periodicTick
    rw [hi]
  refine ⟨?_, ?_, loopTick_length now fails⟩
  · intro hfire hfail
    constructor
    · rw [hpe, if_pos hfire, if_pos hfail]
    · omega
  · intro hchange
    rw [hpe] at hchange
    by_cases hfire : i ≤ now - j.lastRun
    · rw [if_pos hfire] at hchange
      by_cases hfail : fails j.name = true
      · rw [if_pos hfail] at hchange
        exact absurd rfl hchange
      · have hff : fails j.name = false := by
          cases hb : fails j.name
          · rfl
          · exact absurd hb hfail
        refine ⟨hff, hfire, ?_⟩
        rw [hpe, if_pos hfire, if_neg hfail]
    · rw [if_neg hfire] at hchange
      exact absurd rfl hchange

/-- C8 witness: at tick 7, a 5-second recurring job whose action raises is
left unchanged and remains eligible at tick 8. -/
theorem failed_recurring_job_retries_next_tick_witness :
    periodicTick 7 (fun _ => true)
        { name := "r", interval := some 5, lastRun := 0, runOnce := false }
      = { name := "r", interval := some 5, lastRun := 0, runOnce := false }
    ∧ 5 ≤ (7 + 1)
        - ({ name := "r", interval := some 5, lastRun := 0, runOnce := false } : Job).lastRun :=
  (failed_recurring_job_retries_next_tick 7 (fun _ => true)
    { name := "r", interval := some 5, lastRun := 0, runOnce := false } 5 rfl rfl).1
    (by decide) rfl

/-- C9: batch upsert never removes a key — every key present in the
snapshot before the upsert is still present after it — and the snapshot
read returns the store unchanged. -/
theorem store_never_deletes (s : Store) (batch : List DogRecord) :
    (∀ k, (rawLookup (get_all_dogs_dict s) k).isSome = true →
      (rawLookup (get_all_dogs_dict ((add_dogs_batch s batch).2)) k).isSome = true)
    ∧ (get_all_dogs_dict_op s).2 = s := by
  constructor
  · intro k hk
    rw [add_dogs_batch_store]
    unfold get_all_dogs_dict at hk ⊢
    rw [rawLookup_isSome] at hk ⊢
    obtain ⟨r, hr, hrk⟩ := hk
    obtain ⟨r2, hr2, hrk2⟩ :=
      present_applyB batch s k ⟨r, (sortByKey_perm s).mem_iff.mp hr, hrk⟩
    exact ⟨r2, (sortByKey_perm _).mem_iff.mpr hr2, hrk2⟩
  · rfl

/-- C9 witness: key "a" survives the upsert of an unrelated record. -/
theorem store_never_deletes_witness :
    (rawLookup (get_all_dogs_dict ((add_dogs_batch [("a", "1")] [⟨"b", "2"⟩]).2)) "a").isSome
      = true :=
  (store_never_deletes [("a", "1")] [⟨"b", "2"⟩]).1 "a" (by decide)

/-- C10: `add_dogs_batch` returns the batch length for every non-empty
batch regardless of the prior store contents — each INSERT OR REPLACE
statement counts one affected row even when the key already holds the
identical value — and returns 0 leaving the store untouched for an empty
batch. -/
theorem add_dogs_batch_count (s : Store) (dogs : List DogRecord) :
    (dogs ≠ [] → (add_dogs_batch s dogs).1 = dogs.length)
    ∧ add_dogs_batch s [] = (0, s) := by
  constructor
  · intro hne
    cases dogs with
    | nil => exact absurd rfl hne
    | cons d ds =>
      unfold add_dogs_batch
      rw [if_neg (by simp), foldl_count]
      show 0 + (d :: ds).length = (d :: ds).length
      omega
  · rfl

/-- C10 witness: a batch holding exactly the record already stored still
reports one affected row. -/
theorem add_dogs_batch_count_witness :
    (add_dogs_batch [("k", "v")] [⟨"k", "v"⟩]).1 = ([(⟨"k", "v"⟩ : DogRecord)]).length :=
  (add_dogs_batch_count [("k", "v")] [⟨"k", "v"⟩]).1 (by simp)

end OliveTest
